import Mathlib

/-!
Verification of pybktree (src/pybktree.py): a BK-tree supporting
approximate-match queries over a metric space.

The embedding mirrors the Python source:
* a tree node is a two-tuple `(item, children_dict)`; we model the
  children dict as an association list `List (Int × Node α)` whose keys
  are unique by construction (Python dicts preserve insertion order, and
  `children[distance] = ...` on a fresh key appends at the end);
* Python integers are modelled as `Int` (distances, radii, dict keys);
* `BKTree` holds the caller-supplied `distance_func` and an optional
  root node (`self.tree`, `None` when empty);
* the iterative descent of `add`, the deque-based breadth-first loops of
  `find` and `__iter__`, and the final `found.sort(key=itemgetter(0))`
  are all translated below.
-/

universe u

/-- A BK-tree node: `(item, children_dict)` from the source, with the dict
as an insertion-ordered association list keyed by distance. -/
inductive Node (α : Type u) : Type u where
  | mk (item : α) (children : List (Int × Node α)) : Node α

def Node.item {α : Type u} : Node α → α
  | .mk it _ => it

def Node.children {α : Type u} : Node α → List (Int × Node α)
  | .mk _ cs => cs

mutual

/-- Number of nodes in the subtree rooted at a node (measure used for the
breadth-first loops below). -/
def Node.size {α : Type u} : Node α → Nat
  | .mk _ cs => 1 + childrenSize cs

/-- Total node count of a children association list. -/
def childrenSize {α : Type u} : List (Int × Node α) → Nat
  | [] => 0
  | (_, c) :: rest => Node.size c + childrenSize rest

end

mutual

/-- All items stored in the subtree rooted at a node (root first, then the
children subtrees in order). -/
def Node.items {α : Type u} : Node α → List α
  | .mk it cs => it :: childrenItems cs

/-- All items stored in the subtrees of a children association list. -/
def childrenItems {α : Type u} : List (Int × Node α) → List α
  | [] => []
  | (_, c) :: rest => Node.items c ++ childrenItems rest

end

mutual

/-- The descent loop of `BKTree.add`: compute `d = distance_func(item,
parent)`; if no child is stored at key `d` attach a fresh leaf there,
otherwise descend into that child. -/
def Node.add {α : Type u} (f : α → α → Int) (x : α) : Node α → Node α
  | .mk parent cs => .mk parent (addChildren f x (f x parent) cs)

/-- Update of the children dict by `add`: `children.get(distance)` is the
first entry with the given key; a missing key appends `(item, {})` at the
end, an existing key descends into the stored child in place. -/
def addChildren {α : Type u} (f : α → α → Int) (x : α) (d : Int) :
    List (Int × Node α) → List (Int × Node α)
  | [] => [(d, .mk x [])]
  | (k, c) :: rest =>
    if k = d then (k, Node.add f x c) :: rest
    else (k, c) :: addChildren f x d rest

end

/-- The `BKTree` object: the distance function (immutable) and the optional
root node `self.tree`. -/
structure BKTree (α : Type u) where
  distance_func : α → α → Int
  tree : Option (Node α)

/-- Translation of `BKTree.add`: an empty tree gets `item` as its root,
otherwise the descent loop runs from the root. -/
def BKTree.add {α : Type u} (t : BKTree α) (item : α) : BKTree α :=
  match t.tree with
  | none => { t with tree := some (Node.mk item []) }
  | some root => { t with tree := some (Node.add t.distance_func item root) }

/-- Translation of `BKTree.__init__`: start with `self.tree = None` and add
each element of `items` in order. -/
def BKTree.new {α : Type u} (distance_func : α → α → Int) (items : List α) :
    BKTree α :=
  items.foldl BKTree.add { distance_func := distance_func, tree := none }

/-- Total node count of a breadth-first work queue. -/
def queueSize {α : Type u} (q : List (Node α)) : Nat :=
  (q.map Node.size).sum

theorem queueSize_nil {α : Type u} : queueSize ([] : List (Node α)) = 0 := rfl

theorem queueSize_cons {α : Type u} (u : Node α) (q : List (Node α)) :
    queueSize (u :: q) = Node.size u + queueSize q := by
  simp [queueSize]

theorem queueSize_append {α : Type u} (q r : List (Node α)) :
    queueSize (q ++ r) = queueSize q + queueSize r := by
  simp [queueSize]

theorem childrenSize_filter_map_le {α : Type u} (p : Int × Node α → Bool)
    (cs : List (Int × Node α)) :
    queueSize ((cs.filter p).map Prod.snd) ≤ childrenSize cs := by
  induction cs with
  | nil => simp [queueSize, childrenSize]
  | cons hd tl ih =>
    obtain ⟨k, c⟩ := hd
    by_cases hp : p (k, c)
    · simp [List.filter_cons, hp, queueSize_cons, childrenSize]
      omega
    · simp [List.filter_cons, hp, childrenSize]
      omega

/-- The breadth-first loop of `BKTree.find`: pop the left end of the deque,
record the candidate when its distance to the query is at most `n`, and
enqueue exactly the children whose key lies in
`[distance - n, distance + n]`. -/
def findLoop {α : Type u} (f : α → α → Int) (item : α) (n : Int) :
    List (Node α) → List (Int × α)
  | [] => []
  | Node.mk cand cs :: rest =>
    let distance := f cand item
    (if distance ≤ n then [(distance, cand)] else []) ++
      findLoop f item n
        (rest ++ (cs.filter fun p =>
          decide (distance - n ≤ p.1 ∧ p.1 ≤ distance + n)).map Prod.snd)
termination_by q => queueSize q
decreasing_by
  have h := childrenSize_filter_map_le
    (fun p => decide (f cand item - n ≤ p.1 ∧ p.1 ≤ f cand item + n)) cs
  simp only [queueSize_append, queueSize_cons, Node.size]
  omega

/-- Translation of `BKTree.find`: breadth-first collection from the root
(empty tree gives `[]`), then `found.sort(key=itemgetter(0))`. -/
def BKTree.find {α : Type u} (t : BKTree α) (item : α) (n : Int) :
    List (Int × α) :=
  match t.tree with
  | none => []
  | some root =>
    (findLoop t.distance_func item n [root]).mergeSort
      (fun a b => decide (a.1 ≤ b.1))

/-- The breadth-first loop of `BKTree.__iter__`: pop the left end of the
deque, yield the candidate, enqueue all its children. -/
def iterLoop {α : Type u} : List (Node α) → List α
  | [] => []
  | Node.mk cand cs :: rest => cand :: iterLoop (rest ++ cs.map Prod.snd)
termination_by q => queueSize q
decreasing_by
  have h := childrenSize_filter_map_le (fun _ => true) cs
  simp only [List.filter_true] at h
  simp only [queueSize_append, queueSize_cons, Node.size]
  omega

/-- Translation of `BKTree.__iter__`: the full sequence of yielded items
(empty tree yields nothing). -/
def BKTree.itemList {α : Type u} (t : BKTree α) : List α :=
  match t.tree with
  | none => []
  | some root => iterLoop [root]

/-- Count of 1-digits in the binary representation of a natural number:
the meaning of the source expression `bin(m).count(\x7b\x7d)` applied to a
non-negative integer. -/
def bitCount : Nat → Nat
  | 0 => 0
  | n + 1 => (n + 1) % 2 + bitCount ((n + 1) / 2)
decreasing_by exact Nat.div_lt_self (by omega) (by omega)

/-- Translation of `hamming_distance`: `bin(x ^ y).count` of the 1-digits,
i.e. the number of 1-bits of `x XOR y`. -/
def hamming_distance (x y : Nat) : Nat := bitCount (x ^^^ y)

/-- State-passing translation of `BKTree.find`: the source reads
`self.tree`, `self.distance_func` and each node's children but performs no
assignment to any of them, so the tree component of the state is returned
unchanged. -/
def BKTree.findS {α : Type u} (t : BKTree α) (item : α) (n : Int) :
    List (Int × α) × BKTree α :=
  match t.tree with
  | none => ([], t)
  | some root =>
    ((findLoop t.distance_func item n [root]).mergeSort
      (fun a b => decide (a.1 ≤ b.1)), t)

/-- State-passing translation of `BKTree.__iter__`: the traversal reads
`self.tree` and each node's children but performs no assignment, so the
tree component of the state is returned unchanged. -/
def BKTree.iterS {α : Type u} (t : BKTree α) : List α × BKTree α :=
  match t.tree with
  | none => ([], t)
  | some root => (iterLoop [root], t)

/-! ### Induction principles and basic structural lemmas -/

theorem size_le_childrenSize {α : Type u} {p : Int × Node α}
    {cs : List (Int × Node α)} (hp : p ∈ cs) :
    Node.size p.2 ≤ childrenSize cs := by
  induction cs with
  | nil => cases hp
  | cons hd tl ih =>
    obtain ⟨k, c⟩ := hd
    rcases List.mem_cons.mp hp with rfl | hmem
    · simp [childrenSize]
    · have := ih hmem
      simp [childrenSize]
      omega

/-- Custom induction principle for the nested inductive `Node`: to prove a
property of every node it suffices to prove it for a node assuming it for
all entries of its children list. -/
theorem node_ind_on {α : Type u} (P : Node α → Prop)
    (h : ∀ it cs, (∀ p ∈ cs, P p.2) → P (Node.mk it cs)) : ∀ u, P u := by
  have key : ∀ k (u : Node α), Node.size u ≤ k → P u := by
    intro k
    induction k with
    | zero =>
      intro u hu
      cases u with
      | mk it cs => simp [Node.size] at hu
    | succ k ih =>
      intro u hu
      cases u with
      | mk it cs =>
        apply h
        intro p hp
        apply ih
        have hle := size_le_childrenSize hp
        simp [Node.size] at hu
        omega
  intro u
  exact key (Node.size u) u le_rfl

/-- Strong induction on the total node count of a breadth-first work
queue. -/
theorem queue_ind_on {α : Type u} (P : List (Node α) → Prop)
    (h : ∀ q, (∀ r, queueSize r < queueSize q → P r) → P q) :
    ∀ q, P q := by
  have key : ∀ k (q : List (Node α)), queueSize q ≤ k → P q := by
    intro k
    induction k with
    | zero =>
      intro q hq
      apply h
      intro r hr
      exact absurd hr (by omega)
    | succ k ih =>
      intro q hq
      apply h
      intro r hr
      apply ih
      omega
  intro q
  exact key (queueSize q) q le_rfl

theorem Node.item_add {α : Type u} (f : α → α → Int) (x : α) (u : Node α) :
    (Node.add f x u).item = u.item := by
  cases u with
  | mk it cs => simp [Node.add, Node.item]

theorem childrenItems_addChildren_perm {α : Type u} (f : α → α → Int)
    (x : α) (d : Int) (cs : List (Int × Node α))
    (ih : ∀ p ∈ cs, (Node.add f x p.2).items.Perm (x :: p.2.items)) :
    (childrenItems (addChildren f x d cs)).Perm (x :: childrenItems cs) := by
  induction cs with
  | nil => simp [addChildren, childrenItems, Node.items]
  | cons hd tl iht =>
    obtain ⟨k, c⟩ := hd
    by_cases hk : k = d
    · simp only [addChildren, if_pos hk, childrenItems]
      have h1 := (ih (k, c) (by simp)).append_right (childrenItems tl)
      exact h1
    · simp only [addChildren, if_neg hk, childrenItems]
      have h1 := (iht (fun p hp => ih p (by simp [hp]))).append_left
        (Node.items c)
      exact h1.trans (List.perm_middle)

/-- Adding an item to a subtree adds exactly that item to the stored
multiset. -/
theorem Node.items_add_perm {α : Type u} (f : α → α → Int) (x : α) :
    ∀ u : Node α, (Node.add f x u).items.Perm (x :: u.items) := by
  apply node_ind_on
  intro it cs ih
  simp only [Node.add, Node.items]
  have h1 := childrenItems_addChildren_perm f x (f x it) cs ih
  exact (h1.cons it).trans (List.Perm.swap x it _)

/-! ### Structural invariants established by insertion -/

/-- The routing invariant of a BK-tree: every item stored in the subtree
reached through the child at key `d` is at distance exactly `d` from the
node's item (distances computed as in `add`: `distance_func(item, parent)`).
Insertion routes an item into the child at key `d` precisely when its
distance to the node's item equals `d`, so this holds for every tree built
by `add`. -/
inductive Node.WF {α : Type u} (f : α → α → Int) : Node α → Prop where
  | mk (it : α) (cs : List (Int × Node α))
      (hkey : ∀ p ∈ cs, ∀ y ∈ Node.items p.2, f y it = p.1)
      (hrec : ∀ p ∈ cs, Node.WF f p.2) : Node.WF f (Node.mk it cs)

/-- The direct-child key invariant (spec section 3, invariant 1): a child
stored at key `d` has `distance_func(C.item, N.item) = d`, recursively. -/
inductive Node.keyInv {α : Type u} (f : α → α → Int) : Node α → Prop where
  | mk (it : α) (cs : List (Int × Node α))
      (hkey : ∀ p ∈ cs, f (Node.item p.2) it = p.1)
      (hrec : ∀ p ∈ cs, Node.keyInv f p.2) : Node.keyInv f (Node.mk it cs)

theorem addChildren_WF {α : Type u} (f : α → α → Int) (x : α) (d : Int)
    (it : α) (cs : List (Int × Node α)) (hd : f x it = d)
    (ihadd : ∀ p ∈ cs, Node.WF f p.2 → Node.WF f (Node.add f x p.2))
    (hkey : ∀ p ∈ cs, ∀ y ∈ Node.items p.2, f y it = p.1)
    (hrec : ∀ p ∈ cs, Node.WF f p.2) :
    (∀ p ∈ addChildren f x d cs, ∀ y ∈ Node.items p.2, f y it = p.1) ∧
    (∀ p ∈ addChildren f x d cs, Node.WF f p.2) := by
  induction cs with
  | nil =>
    constructor
    · intro p hp y hy
      simp [addChildren] at hp
      subst hp
      simp [Node.items, childrenItems] at hy
      subst hy
      exact hd
    · intro p hp
      simp [addChildren] at hp
      subst hp
      exact Node.WF.mk x [] (by simp) (by simp)
  | cons c0 tl ih =>
    obtain ⟨k, c⟩ := c0
    have hmem0 : (k, c) ∈ (k, c) :: tl := by simp
    by_cases hk : k = d
    · simp only [addChildren, if_pos hk]
      constructor
      · intro p hp y hy
        rcases List.mem_cons.mp hp with rfl | hmem
        · have hiff := (Node.items_add_perm f x c).mem_iff (a := y)
          rcases List.mem_cons.mp (hiff.mp hy) with rfl | hin
          · simpa [hk] using hd
          · exact hkey (k, c) hmem0 y hin
        · exact hkey p (by simp [hmem]) y hy
      · intro p hp
        rcases List.mem_cons.mp hp with rfl | hmem
        · exact ihadd (k, c) hmem0 (hrec (k, c) hmem0)
        · exact hrec p (by simp [hmem])
    · simp only [addChildren, if_neg hk]
      have ihtl := ih (fun p hp hwf => ihadd p (by simp [hp]) hwf)
        (fun p hp => hkey p (by simp [hp])) (fun p hp => hrec p (by simp [hp]))
      constructor
      · intro p hp y hy
        rcases List.mem_cons.mp hp with rfl | hmem
        · exact hkey (k, c) hmem0 y hy
        · exact ihtl.1 p hmem y hy
      · intro p hp
        rcases List.mem_cons.mp hp with rfl | hmem
        · exact hrec (k, c) hmem0
        · exact ihtl.2 p hmem
  
/-- Insertion preserves the routing invariant. -/
theorem Node.WF_add {α : Type u} (f : α → α → Int) (x : α) :
    ∀ u : Node α, Node.WF f u → Node.WF f (Node.add f x u) := by
  apply node_ind_on (P := fun u => Node.WF f u → Node.WF f (Node.add f x u))
  intro it cs ih hwf
  cases hwf with
  | mk _ _ hkey hrec =>
    simp only [Node.add]
    have h := addChildren_WF f x (f x it) it cs rfl ih hkey hrec
    exact Node.WF.mk it _ h.1 h.2

theorem addChildren_keyInv {α : Type u} (f : α → α → Int) (x : α) (d : Int)
    (it : α) (cs : List (Int × Node α)) (hd : f x it = d)
    (ihadd : ∀ p ∈ cs, Node.keyInv f p.2 → Node.keyInv f (Node.add f x p.2))
    (hkey : ∀ p ∈ cs, f (Node.item p.2) it = p.1)
    (hrec : ∀ p ∈ cs, Node.keyInv f p.2) :
    (∀ p ∈ addChildren f x d cs, f (Node.item p.2) it = p.1) ∧
    (∀ p ∈ addChildren f x d cs, Node.keyInv f p.2) := by
  induction cs with
  | nil =>
    constructor
    · intro p hp
      simp [addChildren] at hp
      subst hp
      simpa [Node.item] using hd
    · intro p hp
      simp [addChildren] at hp
      subst hp
      exact Node.keyInv.mk x [] (by simp) (by simp)
  | cons c0 tl ih =>
    obtain ⟨k, c⟩ := c0
    have hmem0 : (k, c) ∈ (k, c) :: tl := by simp
    by_cases hk : k = d
    · simp only [addChildren, if_pos hk]
      constructor
      · intro p hp
        rcases List.mem_cons.mp hp with rfl | hmem
        · simpa [Node.item_add] using hkey (k, c) hmem0
        · exact hkey p (by simp [hmem])
      · intro p hp
        rcases List.mem_cons.mp hp with rfl | hmem
        · exact ihadd (k, c) hmem0 (hrec (k, c) hmem0)
        · exact hrec p (by simp [hmem])
    · simp only [addChildren, if_neg hk]
      have ihtl := ih (fun p hp h => ihadd p (by simp [hp]) h)
        (fun p hp => hkey p (by simp [hp])) (fun p hp => hrec p (by simp [hp]))
      constructor
      · intro p hp
        rcases List.mem_cons.mp hp with rfl | hmem
        · exact hkey (k, c) hmem0
        · exact ihtl.1 p hmem
      · intro p hp
        rcases List.mem_cons.mp hp with rfl | hmem
        · exact hrec (k, c) hmem0
        · exact ihtl.2 p hmem

/-- Insertion preserves the direct-child key invariant. -/
theorem Node.keyInv_add {α : Type u} (f : α → α → Int) (x : α) :
    ∀ u : Node α, Node.keyInv f u → Node.keyInv f (Node.add f x u) := by
  apply node_ind_on
    (P := fun u => Node.keyInv f u → Node.keyInv f (Node.add f x u))
  intro it cs ih hinv
  cases hinv with
  | mk _ _ hkey hrec =>
    simp only [Node.add]
    have h := addChildren_keyInv f x (f x it) it cs rfl ih hkey hrec
    exact Node.keyInv.mk it _ h.1 h.2

/-- The routing invariant of the (optional) root of a `BKTree`. -/
def BKTree.WFt {α : Type u} (t : BKTree α) : Prop :=
  ∀ r, t.tree = some r → Node.WF t.distance_func r

/-- The key invariant of the (optional) root of a `BKTree`. -/
def BKTree.keyInvT {α : Type u} (t : BKTree α) : Prop :=
  ∀ r, t.tree = some r → Node.keyInv t.distance_func r

theorem BKTree.distance_func_add {α : Type u} (t : BKTree α) (x : α) :
    (t.add x).distance_func = t.distance_func := by
  cases h : t.tree with
  | none => simp [BKTree.add, h]
  | some root => simp [BKTree.add, h]

theorem BKTree.WFt_add {α : Type u} (t : BKTree α) (x : α)
    (ht : t.WFt) : (t.add x).WFt := by
  intro r hr
  rw [BKTree.distance_func_add]
  cases h : t.tree with
  | none =>
    simp [BKTree.add, h] at hr
    subst hr
    exact Node.WF.mk x [] (by simp) (by simp)
  | some root =>
    simp [BKTree.add, h] at hr
    subst hr
    exact Node.WF_add _ x root (ht root h)

theorem BKTree.keyInvT_add {α : Type u} (t : BKTree α) (x : α)
    (ht : t.keyInvT) : (t.add x).keyInvT := by
  intro r hr
  rw [BKTree.distance_func_add]
  cases h : t.tree with
  | none =>
    simp [BKTree.add, h] at hr
    subst hr
    exact Node.keyInv.mk x [] (by simp) (by simp)
  | some root =>
    simp [BKTree.add, h] at hr
    subst hr
    exact Node.keyInv_add _ x root (ht root h)

theorem BKTree.WFt_foldl {α : Type u} (xs : List α) :
    ∀ t : BKTree α, t.WFt → (xs.foldl BKTree.add t).WFt := by
  induction xs with
  | nil => intro t ht; exact ht
  | cons x tl ih =>
    intro t ht
    exact ih (t.add x) (t.WFt_add x ht)

theorem BKTree.WFt_new {α : Type u} (f : α → α → Int) (xs : List α) :
    (BKTree.new f xs).WFt := by
  apply BKTree.WFt_foldl
  intro r hr
  simp at hr

/-! ### The breadth-first loops compute the brute-force result -/

/-- All items stored in the subtrees of a work queue. -/
def queueItems {α : Type u} (q : List (Node α)) : List α :=
  (q.map Node.items).flatten

theorem queueItems_nil {α : Type u} : queueItems ([] : List (Node α)) = [] :=
  rfl

theorem queueItems_cons {α : Type u} (u : Node α) (q : List (Node α)) :
    queueItems (u :: q) = u.items ++ queueItems q := by
  simp [queueItems]

theorem queueItems_append {α : Type u} (q r : List (Node α)) :
    queueItems (q ++ r) = queueItems q ++ queueItems r := by
  simp [queueItems]

theorem queueItems_map_snd {α : Type u} (cs : List (Int × Node α)) :
    queueItems (cs.map Prod.snd) = childrenItems cs := by
  induction cs with
  | nil => rfl
  | cons hd tl ih =>
    obtain ⟨k, c⟩ := hd
    simp [queueItems_cons, childrenItems, ih]

/-- The brute-force linear scan: pair every stored item with its distance
to the query and keep the pairs with distance at most `n`. -/
def bfFilter {α : Type u} (f : α → α → Int) (q : α) (n : Int)
    (xs : List α) : List (Int × α) :=
  (xs.map fun x => (f x q, x)).filter fun p => decide (p.1 ≤ n)

theorem bfFilter_nil {α : Type u} (f : α → α → Int) (q : α) (n : Int) :
    bfFilter f q n [] = [] := rfl

theorem bfFilter_append {α : Type u} (f : α → α → Int) (q : α) (n : Int)
    (xs ys : List α) :
    bfFilter f q n (xs ++ ys) = bfFilter f q n xs ++ bfFilter f q n ys := by
  simp [bfFilter]

theorem bfFilter_cons {α : Type u} (f : α → α → Int) (q : α) (n : Int)
    (x : α) (xs : List α) :
    bfFilter f q n (x :: xs) =
      (if f x q ≤ n then [(f x q, x)] else []) ++ bfFilter f q n xs := by
  by_cases h : f x q ≤ n
  · simp [bfFilter, List.filter_cons, h]
  · simp [bfFilter, List.filter_cons, h]

/-- A pruned subtree contributes nothing to the brute-force result: all its
items are at the same distance `d` from the visited node, and `d` outside
`[distance - n, distance + n]` forces (by symmetry and the triangle
inequality) every such item to be farther than `n` from the query. -/
theorem bfFilter_pruned_empty {α : Type u} (f : α → α → Int) (q : α)
    (n : Int) (cand : α) (d : Int) (c : Node α)
    (hsymm : ∀ a b, f a b = f b a)
    (htri : ∀ a b x, f a x ≤ f a b + f b x)
    (hall : ∀ y ∈ Node.items c, f y cand = d)
    (hout : ¬(f cand q - n ≤ d ∧ d ≤ f cand q + n)) :
    bfFilter f q n (Node.items c) = [] := by
  rw [bfFilter, List.filter_eq_nil_iff]
  intro p hp
  simp only [List.mem_map] at hp
  obtain ⟨y, hy, rfl⟩ := hp
  simp only [decide_eq_true_eq]
  intro hle
  apply hout
  have hyd : f y cand = d := hall y hy
  constructor
  · have h1 : f cand q ≤ f cand y + f y q := htri cand y q
    have h2 : f cand y = d := by rw [hsymm cand y, hyd]
    omega
  · have h1 : f y cand ≤ f y q + f q cand := htri y q cand
    have h2 : f q cand = f cand q := hsymm q cand
    omega

/-- Restricting the enqueued children to the kept range does not change the
brute-force result over their subtrees, for a node satisfying the routing
invariant. -/
theorem bfFilter_keep {α : Type u} (f : α → α → Int) (q : α) (n : Int)
    (cand : α) (cs : List (Int × Node α))
    (hsymm : ∀ a b, f a b = f b a)
    (htri : ∀ a b x, f a x ≤ f a b + f b x)
    (hkey : ∀ p ∈ cs, ∀ y ∈ Node.items p.2, f y cand = p.1) :
    bfFilter f q n (queueItems ((cs.filter fun p =>
        decide (f cand q - n ≤ p.1 ∧ p.1 ≤ f cand q + n)).map Prod.snd)) =
      bfFilter f q n (childrenItems cs) := by
  induction cs with
  | nil => rfl
  | cons hd tl ih =>
    obtain ⟨k, c⟩ := hd
    have ihtl := ih (fun p hp => hkey p (by simp [hp]))
    by_cases hk : f cand q - n ≤ k ∧ k ≤ f cand q + n
    · simp only [List.filter_cons, decide_eq_true_eq, if_pos hk]
      simp only [List.map_cons, queueItems_cons, childrenItems,
        bfFilter_append, ihtl]
    · simp only [List.filter_cons, decide_eq_true_eq, if_neg hk]
      have hemp := bfFilter_pruned_empty f q n cand k c hsymm htri
        (hkey (k, c) (by simp)) hk
      simp only [childrenItems, bfFilter_append, hemp, List.nil_append, ihtl]

/-- The breadth-first search loop of `find` returns, up to reordering, the
brute-force scan over every item stored in the queued subtrees, provided
the distance function is symmetric, satisfies the triangle inequality, and
every queued subtree satisfies the routing invariant. -/
theorem findLoop_perm {α : Type u} (f : α → α → Int) (q : α) (n : Int)
    (hsymm : ∀ a b, f a b = f b a)
    (htri : ∀ a b x, f a x ≤ f a b + f b x) :
    ∀ queue : List (Node α), (∀ u ∈ queue, Node.WF f u) →
      (findLoop f q n queue).Perm (bfFilter f q n (queueItems queue)) := by
  apply queue_ind_on (P := fun queue => (∀ u ∈ queue, Node.WF f u) →
    (findLoop f q n queue).Perm (bfFilter f q n (queueItems queue)))
  intro queue ih hwf
  match queue with
  | [] => simp [findLoop, queueItems_nil, bfFilter_nil]
  | Node.mk cand cs :: rest =>
    have hwfnode := hwf (Node.mk cand cs) (by simp)
    obtain ⟨hkey, hrec⟩ : (∀ p ∈ cs, ∀ y ∈ Node.items p.2, f y cand = p.1) ∧
        (∀ p ∈ cs, Node.WF f p.2) := by
      cases hwfnode with
      | mk _ _ h1 h2 => exact ⟨h1, h2⟩
    set kept := (cs.filter fun p =>
      decide (f cand q - n ≤ p.1 ∧ p.1 ≤ f cand q + n)).map Prod.snd with hkept
    have hsize : queueSize (rest ++ kept) <
        queueSize (Node.mk cand cs :: rest) := by
      have h := childrenSize_filter_map_le
        (fun p => decide (f cand q - n ≤ p.1 ∧ p.1 ≤ f cand q + n)) cs
      rw [← hkept] at h
      rw [queueSize_append, queueSize_cons]
      simp only [Node.size]
      omega
    have hwfrec : ∀ u ∈ rest ++ kept, Node.WF f u := by
      intro u hu
      rcases List.mem_append.mp hu with hu | hu
      · exact hwf u (by simp [hu])
      · rw [hkept] at hu
        simp only [List.mem_map, List.mem_filter] at hu
        obtain ⟨p, ⟨hp, _⟩, rfl⟩ := hu
        exact hrec p hp
    have hih := ih (rest ++ kept) hsize hwfrec
    have hunfold : findLoop f q n (Node.mk cand cs :: rest) =
        (if f cand q ≤ n then [(f cand q, cand)] else []) ++
          findLoop f q n (rest ++ kept) := by
      rw [findLoop]
    rw [hunfold, queueItems_cons]
    have hitems : Node.items (Node.mk cand cs) = cand :: childrenItems cs :=
      rfl
    rw [hitems]
    have htarget : bfFilter f q n ((cand :: childrenItems cs) ++
        queueItems rest) =
        (if f cand q ≤ n then [(f cand q, cand)] else []) ++
          (bfFilter f q n (childrenItems cs) ++
            bfFilter f q n (queueItems rest)) := by
      rw [List.cons_append, bfFilter_cons, bfFilter_append]
    rw [htarget]
    apply List.Perm.append_left
    have hkeep := bfFilter_keep f q n cand cs hsymm htri hkey
    have hqk : bfFilter f q n (queueItems kept) =
        bfFilter f q n (childrenItems cs) := by
      rw [hkept]
      exact hkeep
    have h3 : bfFilter f q n (queueItems (rest ++ kept)) =
        bfFilter f q n (queueItems rest) ++
          bfFilter f q n (childrenItems cs) := by
      rw [queueItems_append, bfFilter_append, hqk]
    rw [h3] at hih
    exact hih.trans List.perm_append_comm

/-! ### Traversal, multiset of stored items, and node count -/

/-- The items stored under the optional root of a `BKTree`. -/
def BKTree.optItems {α : Type u} (t : BKTree α) : List α :=
  match t.tree with
  | none => []
  | some root => root.items

/-- The breadth-first traversal yields, up to reordering, all items stored
in the queued subtrees. -/
theorem iterLoop_perm {α : Type u} :
    ∀ queue : List (Node α), (iterLoop queue).Perm (queueItems queue) := by
  apply queue_ind_on (P := fun queue =>
    (iterLoop queue).Perm (queueItems queue))
  intro queue ih
  match queue with
  | [] => simp [iterLoop, queueItems_nil]
  | Node.mk cand cs :: rest =>
    have hsize : queueSize (rest ++ cs.map Prod.snd) <
        queueSize (Node.mk cand cs :: rest) := by
      have h := childrenSize_filter_map_le (fun _ => true) cs
      simp only [List.filter_true] at h
      rw [queueSize_append, queueSize_cons]
      simp only [Node.size]
      omega
    have hih := ih (rest ++ cs.map Prod.snd) hsize
    have hunfold : iterLoop (Node.mk cand cs :: rest) =
        cand :: iterLoop (rest ++ cs.map Prod.snd) := by
      rw [iterLoop]
    rw [hunfold, queueItems_cons]
    have hitems : Node.items (Node.mk cand cs) = cand :: childrenItems cs :=
      rfl
    rw [hitems, List.cons_append]
    apply List.Perm.cons
    rw [queueItems_append, queueItems_map_snd] at hih
    exact hih.trans List.perm_append_comm

/-- Iteration over a `BKTree` yields exactly the items stored under its
root, up to reordering. -/
theorem BKTree.itemList_perm_optItems {α : Type u} (t : BKTree α) :
    t.itemList.Perm t.optItems := by
  cases h : t.tree with
  | none => simp [BKTree.itemList, BKTree.optItems, h]
  | some root =>
    simp only [BKTree.itemList, BKTree.optItems, h]
    have := iterLoop_perm [root]
    simpa [queueItems_cons, queueItems_nil] using this

theorem BKTree.optItems_add_perm {α : Type u} (t : BKTree α) (x : α) :
    (t.add x).optItems.Perm (x :: t.optItems) := by
  cases h : t.tree with
  | none =>
    simp [BKTree.add, h, BKTree.optItems, Node.items, childrenItems]
  | some root =>
    simp only [BKTree.add, h, BKTree.optItems]
    exact Node.items_add_perm t.distance_func x root

theorem BKTree.optItems_foldl_perm {α : Type u} (xs : List α) :
    ∀ t : BKTree α, (xs.foldl BKTree.add t).optItems.Perm (xs ++ t.optItems) := by
  induction xs with
  | nil => intro t; simp
  | cons x tl ih =>
    intro t
    have h1 := ih (t.add x)
    have h2 := (t.optItems_add_perm x).append_left tl
    have h3 := h1.trans h2
    refine h3.trans ?_
    exact @List.perm_middle α x tl t.optItems

/-- The multiset of items stored in a freshly built tree is the multiset of
the inserted items. -/
theorem BKTree.optItems_new_perm {α : Type u} (f : α → α → Int)
    (xs : List α) : (BKTree.new f xs).optItems.Perm xs := by
  have h := BKTree.optItems_foldl_perm xs
    { distance_func := f, tree := none }
  simpa [BKTree.optItems] using h

theorem childrenSize_eq_length_childrenItems {α : Type u}
    (cs : List (Int × Node α))
    (ih : ∀ p ∈ cs, Node.size p.2 = p.2.items.length) :
    childrenSize cs = (childrenItems cs).length := by
  induction cs with
  | nil => rfl
  | cons hd tl iht =>
    obtain ⟨k, c⟩ := hd
    simp only [childrenSize, childrenItems, List.length_append]
    rw [ih (k, c) (by simp), iht (fun p hp => ih p (by simp [hp]))]

/-- The node count of a subtree is the number of stored items. -/
theorem Node.size_eq_length_items {α : Type u} :
    ∀ u : Node α, Node.size u = u.items.length := by
  apply node_ind_on
  intro it cs ih
  simp only [Node.size, Node.items, List.length_cons]
  rw [childrenSize_eq_length_childrenItems cs ih]
  omega

/-- Node count of a `BKTree` (0 when empty). -/
def BKTree.size {α : Type u} (t : BKTree α) : Nat :=
  match t.tree with
  | none => 0
  | some root => root.size

theorem BKTree.size_add {α : Type u} (t : BKTree α) (x : α) :
    (t.add x).size = t.size + 1 := by
  cases h : t.tree with
  | none => simp [BKTree.add, h, BKTree.size, Node.size, childrenSize]
  | some root =>
    simp only [BKTree.add, h, BKTree.size]
    rw [Node.size_eq_length_items, Node.size_eq_length_items,
      (Node.items_add_perm t.distance_func x root).length_eq]
    simp

/-! ### Queries with a negative radius -/

/-- With `n < 0` the pruning window `[distance - n, distance + n]` is empty
and (for a non-negative distance function) no candidate can be recorded, so
the breadth-first loop returns nothing from any queue. -/
theorem findLoop_neg {α : Type u} (f : α → α → Int) (q : α) (n : Int)
    (hn : n < 0) (hnn : ∀ a b, 0 ≤ f a b) :
    ∀ queue : List (Node α), findLoop f q n queue = [] := by
  apply queue_ind_on (P := fun queue => findLoop f q n queue = [])
  intro queue ih
  match queue with
  | [] => rw [findLoop]
  | Node.mk cand cs :: rest =>
    have hfilter : (cs.filter fun p =>
        decide (f cand q - n ≤ p.1 ∧ p.1 ≤ f cand q + n)) = [] := by
      rw [List.filter_eq_nil_iff]
      intro p hp
      simp only [decide_eq_true_eq]
      intro hrange
      omega
    have hsize : queueSize (rest ++ (cs.filter fun p =>
        decide (f cand q - n ≤ p.1 ∧ p.1 ≤ f cand q + n)).map Prod.snd) <
        queueSize (Node.mk cand cs :: rest) := by
      rw [hfilter]
      simp only [List.map_nil, List.append_nil, queueSize_cons]
      simp only [Node.size]
      omega
    have hrec := ih _ hsize
    rw [findLoop]
    simp only [hrec, List.append_nil]
    have : ¬ f cand q ≤ n := by
      have := hnn cand q
      omega
    simp [this]

/-! ### Bit-count facts for `hamming_distance` -/

theorem bitCount_zero : bitCount 0 = 0 := by rw [bitCount]

theorem bitCount_pos_eq (n : Nat) (hn : n ≠ 0) :
    bitCount n = n % 2 + bitCount (n / 2) := by
  match n, hn with
  | m + 1, _ => rw [bitCount]

/-- The 1-digit count of `n` is the number of set bit positions of `n`
below any bound `k` with `n < 2 ^ k`. -/
theorem bitCount_eq_card_testBit :
    ∀ (k n : Nat), n < 2 ^ k →
      bitCount n = ((Finset.range k).filter fun i => n.testBit i).card := by
  intro k
  induction k with
  | zero =>
    intro n hn
    have : n = 0 := by simpa using hn
    subst this
    simp [bitCount_zero]
  | succ k ih =>
    intro n hn
    by_cases h0 : n = 0
    · subst h0
      simp [bitCount_zero, Nat.zero_testBit]
    · rw [bitCount_pos_eq n h0]
      rw [Finset.card_filter, Finset.sum_range_succ']
      have hdiv : n / 2 < 2 ^ k := by
        have h2 : 2 ^ (k + 1) = 2 * 2 ^ k := by ring
        omega
      have hsum : (∑ i ∈ Finset.range k,
          if n.testBit (i + 1) then 1 else 0) =
          ((Finset.range k).filter fun i => (n / 2).testBit i).card := by
        rw [Finset.card_filter]
        apply Finset.sum_congr rfl
        intro i _
        rw [show i + 1 = i.succ from rfl, Nat.testBit_succ]
      rw [hsum, ← ih (n / 2) hdiv]
      have hbit0 : (if n.testBit 0 then 1 else 0) = n % 2 := by
        rw [Nat.testBit_zero]
        rcases Nat.mod_two_eq_zero_or_one n with h | h <;> simp [h]
      rw [hbit0]
      omega

/-! ### Remaining plumbing for the claim theorems -/

theorem BKTree.distance_func_foldl {α : Type u} (xs : List α) :
    ∀ t : BKTree α, (xs.foldl BKTree.add t).distance_func =
      t.distance_func := by
  induction xs with
  | nil => intro t; rfl
  | cons x tl ih =>
    intro t
    rw [List.foldl_cons, ih, BKTree.distance_func_add]

theorem BKTree.distance_func_new {α : Type u} (f : α → α → Int)
    (xs : List α) : (BKTree.new f xs).distance_func = f :=
  BKTree.distance_func_foldl xs _

theorem BKTree.keyInvT_foldl {α : Type u} (xs : List α) :
    ∀ t : BKTree α, t.keyInvT → (xs.foldl BKTree.add t).keyInvT := by
  induction xs with
  | nil => intro t ht; exact ht
  | cons x tl ih =>
    intro t ht
    exact ih (t.add x) (t.keyInvT_add x ht)

theorem BKTree.keyInvT_new {α : Type u} (f : α → α → Int) (xs : List α) :
    (BKTree.new f xs).keyInvT := by
  apply BKTree.keyInvT_foldl
  intro r hr
  simp at hr

/-! ### Claim theorems -/

/-- C1: for every tree built by inserting items with a distance function
satisfying the metric axioms (triangle inequality, symmetry, zero
self-distance), every query item and every non-negative radius, `find`
returns exactly the multiset of pairs `(distance_func(x, q), x)` over the
stored items within distance `n` that a brute-force linear scan produces;
in particular, `find` on an empty tree returns the empty list. -/
theorem claim_C1_find_matches_linear_scan {α : Type u} (f : α → α → Int)
    (hsymm : ∀ a b, f a b = f b a)
    (htri : ∀ a b c, f a c ≤ f a b + f b c)
    (hself : ∀ a, f a a = 0)
    (xs : List α) (q : α) (n : Int) (hn : 0 ≤ n) :
    ((BKTree.new f xs).find q n).Perm
      ((xs.map fun x => (f x q, x)).filter fun p => decide (p.1 ≤ n)) ∧
    (BKTree.new f ([] : List α)).find q n = [] := by
  constructor
  · have hperm := BKTree.optItems_new_perm f xs
    cases h : (BKTree.new f xs).tree with
    | none =>
      have hopt : (BKTree.new f xs).optItems = [] := by
        simp [BKTree.optItems, h]
      rw [hopt] at hperm
      have hxs : xs = [] := List.nil_perm.mp hperm
      subst hxs
      simp [BKTree.find, h]
    | some root =>
      have hwf : Node.WF f root := by
        have hw := BKTree.WFt_new f xs root h
        rwa [BKTree.distance_func_new] at hw
      have hloop := findLoop_perm f q n hsymm htri [root]
        (by
          intro u hu
          rw [List.mem_singleton.mp hu]
          exact hwf)
      have hfind : (BKTree.new f xs).find q n =
          (findLoop f q n [root]).mergeSort
            (fun a b => decide (a.1 ≤ b.1)) := by
        simp only [BKTree.find, h, BKTree.distance_func_new]
      rw [hfind]
      have hq : queueItems [root] = root.items := by
        simp [queueItems_cons, queueItems_nil]
      rw [hq] at hloop
      have hopt : (BKTree.new f xs).optItems = root.items := by
        simp [BKTree.optItems, h]
      rw [hopt] at hperm
      have hbf : (bfFilter f q n root.items).Perm (bfFilter f q n xs) := by
        unfold bfFilter
        exact (hperm.map fun x => (f x q, x)).filter fun p => decide (p.1 ≤ n)
      have hgoal : ((xs.map fun x => (f x q, x)).filter fun p =>
          decide (p.1 ≤ n)) = bfFilter f q n xs := rfl
      rw [hgoal]
      exact ((List.mergeSort_perm _ _).trans hloop).trans hbf
  · rfl

/-- C1 witness: the metric hypotheses and the non-negative radius are
satisfiable, e.g. by the discrete metric on `Bool`. -/
theorem claim_C1_witness :
    ((∀ a b : Bool, (if a = b then 0 else 1 : Int) =
        (if b = a then 0 else 1)) ∧
      (∀ a b c : Bool, (if a = c then 0 else 1 : Int) ≤
        (if a = b then 0 else 1) + (if b = c then 0 else 1)) ∧
      (∀ a : Bool, (if a = a then 0 else 1 : Int) = 0) ∧
      (0 : Int) ≤ 1) ∧
    (((BKTree.new (fun a b : Bool => if a = b then 0 else 1)
        [true, false, true]).find true 1).Perm
      (([true, false, true].map fun x =>
        ((if x = true then 0 else 1 : Int), x)).filter fun p =>
          decide (p.1 ≤ 1)) ∧
      (BKTree.new (fun a b : Bool => if a = b then 0 else 1)
        ([] : List Bool)).find true 1 = []) :=
  ⟨⟨by decide, by decide, by decide, by decide⟩,
    claim_C1_find_matches_linear_scan
      (fun a b : Bool => if a = b then 0 else 1)
      (by decide) (by decide) (by decide) [true, false, true] true 1
      (by decide)⟩

/-- C2: for every tree and every query, the list returned by `find` is
sorted ascending by its distance component. -/
theorem claim_C2_find_sorted {α : Type u} (t : BKTree α) (q : α) (n : Int) :
    List.Pairwise (fun a b : Int × α => a.1 ≤ b.1) (t.find q n) := by
  cases h : t.tree with
  | none => simp [BKTree.find, h]
  | some root =>
    simp only [BKTree.find, h]
    have hs := @List.sorted_mergeSort (Int × α)
      (fun a b => decide (a.1 ≤ b.1))
      (fun a b c hab hbc => by
        simp only [decide_eq_true_eq] at hab hbc ⊢
        omega)
      (fun a b => by
        simp only [Bool.or_eq_true, decide_eq_true_eq]
        omega)
      (findLoop t.distance_func q n [root])
    exact hs.imp fun hab => by simpa using hab

/-- C3: iterating over a tree built by inserting a finite sequence of items
yields exactly the inserted multiset (duplicates preserved); iterating over
an empty tree yields the empty sequence. -/
theorem claim_C3_iter_multiset {α : Type u} (f : α → α → Int)
    (xs : List α) :
    ((BKTree.new f xs).itemList).Perm xs ∧
    (BKTree.new f ([] : List α)).itemList = [] :=
  ⟨(BKTree.itemList_perm_optItems _).trans (BKTree.optItems_new_perm f xs),
    rfl⟩

/-- C4: every tree built by a sequence of `add` calls from an empty tree
satisfies the child-key invariant (`distance_func(C.item, N.item) = d` for
every child `C` stored under key `d`, at every node), and the invariant is
preserved by every `add`. -/
theorem claim_C4_child_key_invariant {α : Type u} (f : α → α → Int) :
    (∀ xs : List α, (BKTree.new f xs).keyInvT) ∧
    (∀ (t : BKTree α) (x : α), t.keyInvT → (t.add x).keyInvT) :=
  ⟨fun xs => BKTree.keyInvT_new f xs, fun t x ht => t.keyInvT_add x ht⟩

/-- C4 witness: the invariant-preservation clause applied to a concrete
empty tree. -/
theorem claim_C4_witness :
    ((⟨fun _ _ => 0, none⟩ : BKTree Bool).add true).keyInvT :=
  (claim_C4_child_key_invariant (fun _ _ => (0 : Int))).2
    (⟨fun _ _ => 0, none⟩ : BKTree Bool) true (fun _ hr => nomatch hr)

/-- C5: a query with negative radius returns the empty list on every tree
(given a distance function with non-negative values): the pruning window is
empty and no candidate can be recorded, so no error and no result. -/
theorem claim_C5_negative_radius {α : Type u} (t : BKTree α) (q : α)
    (n : Int) (hn : n < 0)
    (hnn : ∀ a b, 0 ≤ t.distance_func a b) :
    t.find q n = [] := by
  cases h : t.tree with
  | none => simp [BKTree.find, h]
  | some root =>
    simp only [BKTree.find, h]
    rw [findLoop_neg t.distance_func q n hn hnn]
    simp

/-- C5 witness: a concrete one-node tree queried with radius `-1`. -/
theorem claim_C5_witness :
    ((-1 : Int) < 0) ∧
    (⟨fun _ _ => 0, some (Node.mk true [])⟩ : BKTree Bool).find false (-1)
      = [] :=
  ⟨by decide,
    claim_C5_negative_radius
      (⟨fun _ _ => 0, some (Node.mk true [])⟩ : BKTree Bool) false (-1)
      (by decide) (by decide)⟩

/-- C6: constructing a tree from a distance function and an item sequence
is the same as constructing the empty tree bound to that function and then
adding each item in order; construction with no items leaves the tree
empty. -/
theorem claim_C6_construction_is_fold {α : Type u} (f : α → α → Int)
    (xs : List α) :
    BKTree.new f xs = xs.foldl BKTree.add (BKTree.new f []) ∧
    (BKTree.new f ([] : List α)).tree = none :=
  ⟨rfl, rfl⟩

/-- C7: every `add` call terminates (the embedding is a total function,
justified by a decreasing node-count measure) and grows the tree by exactly
one node: the node count increases by one and the stored multiset gains
exactly the inserted item, with no existing entry removed. -/
theorem claim_C7_add_one_node {α : Type u} (t : BKTree α) (x : α) :
    (t.add x).size = t.size + 1 ∧
    (t.add x).itemList.Perm (x :: t.itemList) := by
  refine ⟨t.size_add x, ?_⟩
  have h1 := BKTree.itemList_perm_optItems (t.add x)
  have h2 := t.optItems_add_perm x
  have h3 := ((BKTree.itemList_perm_optItems t).symm).cons x
  exact (h1.trans h2).trans h3

/-- C8: building two separate trees by inserting the same item sequence
with the same pure distance function yields identical `find` results for
every query and radius. -/
theorem claim_C8_deterministic {α : Type u} (f : α → α → Int) (xs : List α)
    (t1 t2 : BKTree α) (h1 : t1 = BKTree.new f xs) (h2 : t2 = BKTree.new f xs)
    (q : α) (n : Int) : t1.find q n = t2.find q n := by
  subst h1
  subst h2
  rfl

/-- C8 witness: two trees built from the same two-element sequence. -/
theorem claim_C8_witness :
    (BKTree.new (fun a b : Int => a - b) [1, 2] =
      BKTree.new (fun a b : Int => a - b) [1, 2]) ∧
    (BKTree.new (fun a b : Int => a - b) [1, 2]).find 1 0 =
      (BKTree.new (fun a b : Int => a - b) [1, 2]).find 1 0 :=
  ⟨rfl, claim_C8_deterministic (fun a b : Int => a - b) [1, 2] _ _ rfl rfl 1 0⟩

/-- C9: `find` and iteration are read-only: in the state-passing
translation they return the tree unchanged while producing the same results
as the pure query functions; only `add` changes the tree. -/
theorem claim_C9_find_iter_read_only {α : Type u} (t : BKTree α) (q : α)
    (n : Int) :
    (t.findS q n).2 = t ∧ (t.findS q n).1 = t.find q n ∧
    t.iterS.2 = t ∧ t.iterS.1 = t.itemList := by
  cases h : t.tree with
  | none =>
    refine ⟨?_, ?_, ?_, ?_⟩ <;>
      simp [BKTree.findS, BKTree.iterS, BKTree.find, BKTree.itemList, h]
  | some root =>
    refine ⟨?_, ?_, ?_, ?_⟩ <;>
      simp [BKTree.findS, BKTree.iterS, BKTree.find, BKTree.itemList, h]

/-- C10: `hamming_distance x y` is the number of bit positions at which `x`
and `y` differ (for any position bound `k` covering `x XOR y`), it is
symmetric, and `hamming_distance x x = 0`. -/
theorem claim_C10_hamming_popcount (x y : Nat) :
    (∀ k, x ^^^ y < 2 ^ k →
      hamming_distance x y =
        ((Finset.range k).filter fun i => x.testBit i ≠ y.testBit i).card) ∧
    hamming_distance x y = hamming_distance y x ∧
    hamming_distance x x = 0 := by
  refine ⟨?_, ?_, ?_⟩
  · intro k hk
    rw [hamming_distance, bitCount_eq_card_testBit k _ hk]
    congr 1
    apply Finset.filter_congr
    intro i _
    rw [Nat.testBit_xor]
    cases hx : x.testBit i <;> cases hy : y.testBit i <;> simp [hx, hy]
  · rw [hamming_distance, hamming_distance, Nat.xor_comm]
  · rw [hamming_distance, Nat.xor_self, bitCount_zero]

/-- C10 witness: `hamming_distance 13 5` counts the bit positions where 13
and 5 differ among the first four positions. -/
theorem claim_C10_witness :
    (13 ^^^ 5 : Nat) < 2 ^ 4 ∧
    hamming_distance 13 5 =
      ((Finset.range 4).filter fun i =>
        (13 : Nat).testBit i ≠ (5 : Nat).testBit i).card :=
  ⟨by decide, (claim_C10_hamming_popcount 13 5).1 4 (by decide)⟩
